import Mathlib

/-!
Verification of the clockworker repository: the rate-limited batch fetch
coordinator (`batchGetWithFlowRestriction`) and its callers in
`collect-winning-comps.ts` (`fetchTopChallengers`, `fetchWinningMatches`).

The executor itself lives in `src/utils/riot-api-utils`, whose source is not
part of the repository snapshot; it is modelled from the specification
(section 4.1).  The caller-side logic is translated directly from
`collect-winning-comps.ts`.
-/

/-- A rate limit descriptor: maximum number of calls per fixed time window.
Modelled from the spec: `{ maxRequests : integer > 0, windowDurationMs : integer > 0 }`. -/
structure RateLimit where
  maxRequests : ℕ
  windowDurationMs : ℕ
deriving DecidableEq, Repr

/-- Configuration errors of the executor.  Modelled from the spec: an invalid
rate limit or buffer ratio producing a non-positive effective ceiling is
rejected before any call is dispatched. -/
inductive ConfigError where
  | invalidCeiling
deriving DecidableEq, Repr

/-- Modelled from the spec: `effectiveCeiling = floor(rateLimit.maxRequests *
bufferRatio)`, the actual per-window call budget after applying the buffer
ratio to the nominal limit. -/
def effectiveCeiling (rl : RateLimit) (bufferRatio : ℚ) : ℤ :=
  ⌊(rl.maxRequests : ℚ) * bufferRatio⌋

/-- Modelled from the spec: partition a list into consecutive chunks of size
`n` (last chunk may be smaller), preserving input order.  Only invoked with
`n ≥ 1`. -/
def chunksOf (n : ℕ) : List α → List (List α)
  | [] => []
  | x :: xs => (x :: xs).take n :: chunksOf n (xs.drop (n - 1))
termination_by l => l.length
decreasing_by
  simp only [List.length_drop, List.length_cons]
  omega

/-- The observable outcome of one executor invocation: the result (or a
configuration error), the keys dispatched in dispatch order, and the list of
inter-chunk pauses (in milliseconds) in the order they are taken. -/
structure BatchOutcome (R K : Type) where
  result : Except ConfigError (List R)
  dispatched : List K
  waits : List ℕ

/-- Intermediate trace of running a list of chunks. -/
structure RunTrace (R K : Type) where
  results : List R
  dispatched : List K
  waits : List ℕ

/-- Modelled from the spec, section 4.1 step 3: for each chunk in order,
dispatch all calls of the chunk, await them all, keep the successful payloads
in key order, and pause for the window duration after each non-final chunk.
A call is modelled as `callFn key fixedParams : Option R`; `none` is a failed
call, which is recorded by dropping the key from the results. -/
def runChunks (callFn : K → P → Option R) (p : P) (window : ℕ) :
    List (List K) → RunTrace R K
  | [] => ⟨[], [], []⟩
  | c :: rest =>
    let t := runChunks callFn p window rest
    ⟨c.filterMap (fun k => callFn k p) ++ t.results,
     c ++ t.dispatched,
     (if rest.isEmpty then [] else [window]) ++ t.waits⟩

/-- Modelled from the spec, section 4.1 (the executor of
`src/utils/riot-api-utils`, not present in the snapshot): compute the
effective ceiling, fail fast on a non-positive ceiling, otherwise partition
the keys into chunks of that size and run them in order, concatenating
per-chunk results in chunk order and, within a chunk, in key order. -/
def batchGetWithFlowRestriction (callFn : K → P → Option R) (keys : List K)
    (fixedParams : P) (rl : RateLimit) (bufferRatio : ℚ) : BatchOutcome R K :=
  let ceiling := effectiveCeiling rl bufferRatio
  if ceiling ≤ 0 then ⟨.error .invalidCeiling, [], []⟩
  else
    let t := runChunks callFn fixedParams rl.windowDurationMs
      (chunksOf ceiling.toNat keys)
    ⟨.ok t.results, t.dispatched, t.waits⟩

/-- Modelled from the spec, section 4.1 step 3 and section 5 (timing): given a
latency for each chunk (time from dispatch until every call of the chunk has
settled), the schedule assigns each chunk its dispatch time and settle time;
the next chunk is dispatched one full window after the previous chunk
settled. -/
def chunkSchedule (latency : List K → ℕ) (window : ℕ) :
    ℕ → List (List K) → List (ℕ × ℕ)
  | _, [] => []
  | t, c :: rest =>
    (t, t + latency c) :: chunkSchedule latency window (t + latency c + window) rest

/-- League entry, from the `LeagueEntry` interface of
`collect-winning-comps.ts` (lines 39-44). -/
structure LeagueEntry where
  puuid : String
  summonerName : Option String
  leaguePoints : ℤ
  rank : Option String
deriving DecidableEq, Repr

/-- `fetchTopChallengers` from `collect-winning-comps.ts` (lines 58-66): sort
the challenger league entries by league points in descending order and take
the first `count`.  The JavaScript comparator `(a, b) => b.leaguePoints -
a.leaguePoints` puts `a` before `b` exactly when `a.leaguePoints >
b.leaguePoints`; `Array.prototype.sort` is stable, which `List.mergeSort`
models.  The remote league call is abstracted as the `entries` argument. -/
def fetchTopChallengers (entries : List LeagueEntry) (count : ℕ) :
    List LeagueEntry :=
  (entries.mergeSort fun a b => decide (b.leaguePoints ≤ a.leaguePoints)).take
    count

/-- A unit of a TFT participant, from the twisted `MatchTFTDTO`; carries more
fields than the two the collector keeps (modelled here by `rarity`). -/
structure UnitDTO where
  character_id : String
  rarity : ℤ
  tier : ℤ
deriving DecidableEq, Repr

/-- A participant of a TFT match, from the twisted `MatchTFTDTO`.  The
`riotIdGameName` field is read as `(p as any).riotIdGameName || ''` in the
source, so a missing value is identified with the empty string. -/
structure ParticipantDTO where
  puuid : String
  placement : ℤ
  riotIdGameName : String
  riotIdTagline : String
  units : List UnitDTO
deriving DecidableEq, Repr

/-- The `info` payload of a TFT match. -/
structure MatchInfoDTO where
  game_datetime : ℤ
  participants : List ParticipantDTO
deriving DecidableEq, Repr

/-- A TFT match detail, from the twisted `MatchTFTDTO`. -/
structure MatchTFTDTO where
  info : MatchInfoDTO
deriving DecidableEq, Repr

/-- The unit projection stored in a winning comp:
`{ character_id, tier }` (lines 129-132 of `collect-winning-comps.ts`). -/
structure CompUnit where
  character_id : String
  tier : ℤ
deriving DecidableEq, Repr

/-- `WinningComp` interface of `collect-winning-comps.ts` (lines 31-37).
`endAt` keeps the raw `game_datetime` timestamp the `Date` is built from. -/
structure WinningComp where
  region : String
  playerName : String
  rank : ℤ
  endAt : ℤ
  units : List CompUnit
deriving DecidableEq, Repr

/-- The projection `(u) => ({ character_id: u.character_id, tier: u.tier })`
applied to each unit of the winning participant. -/
def projectUnit (u : UnitDTO) : CompUnit :=
  ⟨u.character_id, u.tier⟩

/-- The slice of the TFT api used by `fetchWinningMatches`: the match-id list
call (which may throw, modelled by `Except`) and the match detail call keyed
by match id and region group (which may fail, modelled by `Option`). -/
structure TftApiModel where
  matchList : Except Unit (List String)
  getMatch : String → String → Option MatchTFTDTO

/-- Player name extraction of `collect-winning-comps.ts` lines 107-116: look
up the requested participant in the first fetched match; the JavaScript
`gameName || 'Unknown'` makes the empty string fall back to `Unknown`. -/
def playerNameOf (fetched : List MatchTFTDTO) (puuid : String) : String :=
  match fetched with
  | [] => "Unknown"
  | m :: _ =>
    match m.info.participants.find? (fun pt => pt.puuid == puuid) with
    | some pt =>
      if pt.riotIdGameName = "" then "Unknown" else pt.riotIdGameName
    | none => "Unknown"

/-- One iteration of the winning-match filter loop of
`collect-winning-comps.ts` lines 121-135: the match contributes a comp
exactly when it has a participant with the requested puuid placed first. -/
def winningCompOf (puuid region playerName : String) (rank : ℤ)
    (m : MatchTFTDTO) : Option WinningComp :=
  match m.info.participants.find? (fun pt => pt.puuid == puuid) with
  | some pt =>
    if pt.placement = 1 then
      some ⟨region, playerName, rank, m.info.game_datetime,
        pt.units.map projectUnit⟩
    else none
  | none => none

/-- Whether a match is a win for the given puuid: its first participant with
that puuid exists and has placement 1. -/
def isWinFor (puuid : String) (m : MatchTFTDTO) : Bool :=
  match m.info.participants.find? (fun pt => pt.puuid == puuid) with
  | some pt => pt.placement == 1
  | none => false

/-- `fetchWinningMatches` from `collect-winning-comps.ts` (lines 72-138): on
a failed or empty match-id list, return no comps and the player name
`Unknown`; otherwise fetch the match details through
`batchGetWithFlowRestriction` (whose configuration error, not caught by the
source, propagates), extract the player name from the first fetched match,
and keep one comp per fetched match won by the requested puuid.  The rate
limit and buffer ratio constants of the missing `riot-api-utils` module are
taken as parameters. -/
def fetchWinningMatches (api : TftApiModel) (puuid region : String)
    (rank : ℤ) (regionGroup : String) (rl : RateLimit) (ratio : ℚ) :
    Except ConfigError (List WinningComp × String) :=
  match api.matchList with
  | .error _ => .ok ([], "Unknown")
  | .ok matchIds =>
    if matchIds.length = 0 then .ok ([], "Unknown")
    else
      match (batchGetWithFlowRestriction (fun mid rg => api.getMatch mid rg)
          matchIds regionGroup rl ratio).result with
      | .error e => .error e
      | .ok fetched =>
        let playerName := playerNameOf fetched puuid
        .ok (fetched.filterMap (winningCompOf puuid region playerName rank),
          playerName)

/-- Concrete fixture: a unit of the sample participant. -/
def sampleUnit : UnitDTO :=
  ⟨"x", 9, 2⟩

/-- Concrete fixture: a participant with the requested puuid placed first. -/
def sampleParticipant : ParticipantDTO :=
  ⟨"p", 1, "A", "t", [sampleUnit]⟩

/-- Concrete fixture: a match won by the sample participant. -/
def sampleMatch : MatchTFTDTO :=
  ⟨⟨5, [sampleParticipant]⟩⟩

/-- Concrete fixture: an api returning one match id and the sample match. -/
def sampleApi : TftApiModel :=
  ⟨.ok ["i"], fun _ _ => some sampleMatch⟩

/-- Concrete fixture: the winning comp extracted from the sample match. -/
def sampleComp : WinningComp :=
  ⟨"r", "A", 1, 5, [⟨"x", 2⟩]⟩

section ExecutorLemmas

variable {K P R : Type}

theorem chunksOf_flatten (n : ℕ) (hn : 1 ≤ n) :
    ∀ l : List α, (chunksOf n l).flatten = l := by
  intro l
  induction l using chunksOf.induct n with
  | case1 => simp [chunksOf]
  | case2 x xs ih =>
    obtain ⟨m, rfl⟩ : ∃ m, n = m + 1 := ⟨n - 1, by omega⟩
    simp only [chunksOf, List.flatten_cons, ih]
    simp only [Nat.add_sub_cancel, List.drop_succ_cons.symm]
    exact List.take_append_drop (m + 1) (x :: xs)

theorem chunksOf_length_le (n : ℕ) (l : List α) :
    ∀ c ∈ chunksOf n l, c.length ≤ n := by
  induction l using chunksOf.induct n with
  | case1 => simp [chunksOf]
  | case2 x xs ih =>
    intro c hc
    simp only [chunksOf, List.mem_cons] at hc
    rcases hc with rfl | hc
    · exact List.length_take_le n (x :: xs)
    · exact ih c hc

theorem chunksOf_count (n : ℕ) (hn : 1 ≤ n) :
    ∀ l : List α, (chunksOf n l).length = (l.length + n - 1) / n := by
  intro l
  induction l using chunksOf.induct n with
  | case1 =>
    simp only [chunksOf, List.length_nil, Nat.zero_add]
    exact (Nat.div_eq_of_lt (by omega)).symm
  | case2 x xs ih =>
    obtain ⟨m, rfl⟩ : ∃ m, n = m + 1 := ⟨n - 1, by omega⟩
    simp only [Nat.add_sub_cancel, List.length_drop] at ih
    simp only [chunksOf, List.length_cons, Nat.add_sub_cancel, ih]
    rcases Nat.le_total m xs.length with h | h
    · have h1 : xs.length - m + (m + 1) - 1 = xs.length := by omega
      have h2 : xs.length + 1 + (m + 1) - 1 = xs.length + (m + 1) := by omega
      rw [h1, h2, Nat.add_div_right _ (by omega)]
    · have h1 : xs.length - m + (m + 1) - 1 = m := by omega
      have h2 : xs.length + 1 + (m + 1) - 1 = xs.length + (m + 1) := by omega
      rw [h1, h2, Nat.add_div_right _ (by omega), Nat.div_eq_of_lt (by omega),
        Nat.div_eq_of_lt (by omega)]

theorem runChunks_results (callFn : K → P → Option R) (p : P) (window : ℕ)
    (cs : List (List K)) :
    (runChunks callFn p window cs).results =
      cs.flatten.filterMap (fun k => callFn k p) := by
  induction cs with
  | nil => simp [runChunks]
  | cons c rest ih => simp [runChunks, ih]

theorem runChunks_dispatched (callFn : K → P → Option R) (p : P) (window : ℕ)
    (cs : List (List K)) :
    (runChunks callFn p window cs).dispatched = cs.flatten := by
  induction cs with
  | nil => simp [runChunks]
  | cons c rest ih => simp [runChunks, ih]

theorem runChunks_waits (callFn : K → P → Option R) (p : P) (window : ℕ)
    (cs : List (List K)) :
    (runChunks callFn p window cs).waits =
      List.replicate (cs.length - 1) window := by
  induction cs with
  | nil => simp [runChunks]
  | cons c rest ih =>
    cases rest with
    | nil => simp [runChunks]
    | cons c' rest' =>
      simp only [runChunks, List.isEmpty_cons, List.length_cons,
        Nat.add_sub_cancel] at ih ⊢
      rw [ih]
      simp [List.replicate_succ]

theorem filterMap_eq_map_of_all_some (callFn : K → P → Option R) (p : P)
    (f : K → R) :
    ∀ l : List K, (∀ k ∈ l, callFn k p = some (f k)) →
      l.filterMap (fun k => callFn k p) = l.map f := by
  intro l hl
  induction l with
  | nil => simp
  | cons x xs ih =>
    have hx := hl x (by simp)
    rw [List.filterMap_cons, hx, List.map_cons]
    rw [ih fun k hk => hl k (List.mem_cons_of_mem x hk)]

theorem effectiveCeiling_ratio_one (m w : ℕ) :
    effectiveCeiling ⟨m, w⟩ 1 = m := by
  simp [effectiveCeiling]

theorem chunksOf_length_one (n : ℕ) (l : List α) (hne : l ≠ [])
    (hlen : l.length ≤ n) : (chunksOf n l).length = 1 := by
  have hpos : 0 < l.length := List.length_pos.mpr hne
  have hn : 1 ≤ n := le_trans hpos hlen
  rw [chunksOf_count n hn l]
  have h1 : l.length + n - 1 = (l.length - 1) + n := by omega
  rw [h1, Nat.add_div_right _ (by omega), Nat.div_eq_of_lt (by omega)]

theorem chunkSchedule_length (lat : List K → ℕ) (w : ℕ) :
    ∀ (cs : List (List K)) (t : ℕ),
      (chunkSchedule lat w t cs).length = cs.length := by
  intro cs
  induction cs with
  | nil => intro t; rfl
  | cons c rest ih => intro t; simp [chunkSchedule, ih]

theorem chunkSchedule_get_succ (lat : List K → ℕ) (w : ℕ) :
    ∀ (cs : List (List K)) (t i : ℕ)
      (h : i + 1 < (chunkSchedule lat w t cs).length),
      ((chunkSchedule lat w t cs).get ⟨i + 1, h⟩).1 =
        ((chunkSchedule lat w t cs).get ⟨i, Nat.lt_of_succ_lt h⟩).2 + w := by
  intro cs
  induction cs with
  | nil => intro t i h; simp [chunkSchedule] at h
  | cons c rest ih =>
    intro t i h
    cases i with
    | zero =>
      cases rest with
      | nil => simp [chunkSchedule] at h
      | cons c2 rest2 => rfl
    | succ j =>
      have h2 : j + 1 < (chunkSchedule lat w (t + lat c + w) rest).length := by
        simpa [chunkSchedule] using h
      have hrec := ih (t + lat c + w) j h2
      simpa [chunkSchedule] using hrec

theorem chunkSchedule_getLast_settle (lat : List K → ℕ) (w : ℕ) :
    ∀ (cs : List (List K)) (t : ℕ) (pr : ℕ × ℕ),
      (chunkSchedule lat w t cs).getLast? = some pr →
        t + (cs.length - 1) * w ≤ pr.2 := by
  intro cs
  induction cs with
  | nil => intro t pr h; simp [chunkSchedule] at h
  | cons c rest ih =>
    intro t pr h
    cases rest with
    | nil =>
      simp only [chunkSchedule, List.getLast?_singleton,
        Option.some.injEq] at h
      subst h
      simp
    | cons c2 rest2 =>
      have hcons : chunkSchedule lat w t (c :: c2 :: rest2) =
          (t, t + lat c) :: chunkSchedule lat w (t + lat c + w)
            (c2 :: rest2) := rfl
      have hcons2 : chunkSchedule lat w (t + lat c + w) (c2 :: rest2) =
          (t + lat c + w, t + lat c + w + lat c2) ::
            chunkSchedule lat w (t + lat c + w + lat c2 + w) rest2 := rfl
      rw [hcons, hcons2, List.getLast?_cons_cons, ← hcons2] at h
      have hle := ih (t + lat c + w) pr h
      simp only [List.length_cons, Nat.add_sub_cancel] at hle ⊢
      have hmul : (rest2.length + 1) * w = rest2.length * w + w := by ring
      rw [hmul]
      linarith

end ExecutorLemmas

section CollectorLemmas

theorem length_filterMap_eq_length_filter {α β : Type} (f : α → Option β)
    (p : α → Bool) (hfp : ∀ a, (f a).isSome = p a) :
    ∀ l : List α, (l.filterMap f).length = (l.filter p).length := by
  intro l
  induction l with
  | nil => rfl
  | cons x xs ih =>
    have hx := (hfp x).symm
    cases hf : f x with
    | none =>
      rw [hf] at hx
      simp only [Option.isSome_none] at hx
      simp [List.filterMap_cons, List.filter_cons, hf, hx, ih]
    | some b =>
      rw [hf] at hx
      simp only [Option.isSome_some] at hx
      simp [List.filterMap_cons, List.filter_cons, hf, hx, ih]

theorem winningCompOf_isSome (puuid region name : String) (rank : ℤ)
    (m : MatchTFTDTO) :
    (winningCompOf puuid region name rank m).isSome = isWinFor puuid m := by
  simp only [winningCompOf, isWinFor]
  cases m.info.participants.find? (fun pt => pt.puuid == puuid) with
  | none => rfl
  | some pt =>
    by_cases h : pt.placement = 1
    · simp [h]
    · simp [h]

end CollectorLemmas

/-- Claim C1: for every non-empty key list under a configuration with a
positive effective ceiling, if every call made by the executor succeeds then
the result of `batchGetWithFlowRestriction` holds exactly one payload per
input key and the payloads appear in input key order (the model assembles
each chunk by key index, as `Promise.all` does, so the completion order of
concurrent calls cannot influence the output order). -/
theorem batchGet_all_success_ordered {K P R : Type} (callFn : K → P → Option R)
    (keys : List K) (p : P) (rl : RateLimit) (ratio : ℚ) (f : K → R)
    (_hne : keys ≠ []) (hceil : 1 ≤ effectiveCeiling rl ratio)
    (hsucc : ∀ k ∈ keys, callFn k p = some (f k)) :
    (batchGetWithFlowRestriction callFn keys p rl ratio).result =
      .ok (keys.map f) ∧ (keys.map f).length = keys.length := by
  have hn1 : 1 ≤ (effectiveCeiling rl ratio).toNat := by omega
  have hno : ¬ effectiveCeiling rl ratio ≤ 0 := by omega
  constructor
  · simp only [batchGetWithFlowRestriction]
    rw [if_neg hno]
    simp only [runChunks_results, chunksOf_flatten _ hn1,
      filterMap_eq_map_of_all_some callFn p f keys hsucc]
  · simp

/-- Witness for C1: three keys, ceiling two, every call succeeds. -/
theorem batchGet_all_success_ordered_witness :
    (batchGetWithFlowRestriction (fun (k : ℕ) (_ : Unit) => some (k + 1))
        [3, 4, 5] () ⟨2, 1000⟩ 1).result = .ok [4, 5, 6] ∧
    ([3, 4, 5].map (fun k => k + 1)).length = [3, 4, 5].length := by
  have h := batchGet_all_success_ordered
    (fun (k : ℕ) (_ : Unit) => some (k + 1)) [3, 4, 5] () ⟨2, 1000⟩ 1
    (fun k => k + 1) (by simp)
    (by rw [effectiveCeiling_ratio_one]; omega)
    (by intro k _; rfl)
  refine ⟨?_, h.2⟩
  have h1 := h.1
  simpa using h1

/-- Claim C2: under a configuration with a positive effective ceiling, the
batch never raises for individual call failures: it returns an `ok` result
whose length is at most the number of input keys and every entry of which
comes from a successful call on some input key. -/
theorem batchGet_partial_failure_contained {K P R : Type}
    (callFn : K → P → Option R) (keys : List K) (p : P) (rl : RateLimit)
    (ratio : ℚ) (hceil : 1 ≤ effectiveCeiling rl ratio) :
    ∃ rs : List R,
      (batchGetWithFlowRestriction callFn keys p rl ratio).result = .ok rs ∧
      rs.length ≤ keys.length ∧
      ∀ r ∈ rs, ∃ k ∈ keys, callFn k p = some r := by
  have hn1 : 1 ≤ (effectiveCeiling rl ratio).toNat := by omega
  have hno : ¬ effectiveCeiling rl ratio ≤ 0 := by omega
  refine ⟨keys.filterMap (fun k => callFn k p), ?_, ?_, ?_⟩
  · simp only [batchGetWithFlowRestriction]
    rw [if_neg hno]
    simp only [runChunks_results, chunksOf_flatten _ hn1]
  · exact List.length_filterMap_le _ _
  · intro r hr
    exact List.mem_filterMap.mp hr

/-- Witness for C2: one of three calls fails, the batch still returns ok. -/
theorem batchGet_partial_failure_contained_witness :
    ∃ rs : List ℕ,
      (batchGetWithFlowRestriction
          (fun (k : ℕ) (_ : Unit) => if k = 3 then none else some (k * 10))
          [1, 3, 5] () ⟨2, 1000⟩ 1).result = .ok rs ∧
      rs.length ≤ [1, 3, 5].length ∧
      ∀ r ∈ rs, ∃ k ∈ [1, 3, 5],
        (fun (k : ℕ) (_ : Unit) =>
          if k = 3 then none else some (k * 10)) k () = some r :=
  batchGet_partial_failure_contained _ [1, 3, 5] () ⟨2, 1000⟩ 1
    (by rw [effectiveCeiling_ratio_one]; omega)

/-- Claim C3: with `n` the effective ceiling
`floor(maxRequests * bufferRatio)` (assumed positive), the keys are
partitioned into consecutive order-preserving chunks: the chunks concatenate
back to the input, no chunk exceeds `n` keys, and the number of chunks is
`(len + n - 1) / n`, which is the ceiling of `len / n`. -/
theorem chunking_matches_effective_ceiling {K : Type} (rl : RateLimit)
    (ratio : ℚ) (keys : List K) (n : ℕ)
    (hn : n = (effectiveCeiling rl ratio).toNat)
    (hceil : 1 ≤ effectiveCeiling rl ratio) :
    (chunksOf n keys).flatten = keys ∧
    (∀ c ∈ chunksOf n keys, c.length ≤ n) ∧
    (chunksOf n keys).length = (keys.length + n - 1) / n := by
  subst hn
  have hn1 : 1 ≤ (effectiveCeiling rl ratio).toNat := by omega
  exact ⟨chunksOf_flatten _ hn1 keys, chunksOf_length_le _ keys,
    chunksOf_count _ hn1 keys⟩

/-- Witness for C3: five keys, ceiling two, three chunks. -/
theorem chunking_matches_effective_ceiling_witness :
    (chunksOf 2 [1, 2, 3, 4, 5]).flatten = [1, 2, 3, 4, 5] ∧
    (∀ c ∈ chunksOf 2 [1, 2, 3, 4, 5], c.length ≤ 2) ∧
    (chunksOf 2 [1, 2, 3, 4, 5]).length =
      ([1, 2, 3, 4, 5].length + 2 - 1) / 2 :=
  chunking_matches_effective_ceiling ⟨2, 1000⟩ 1 [1, 2, 3, 4, 5] 2
    (by rw [effectiveCeiling_ratio_one]; rfl)
    (by rw [effectiveCeiling_ratio_one]; omega)

/-- Claim C4: when `floor(maxRequests * bufferRatio) = 0`, the executor
fails with a configuration error, dispatches zero calls and starts zero
waits. -/
theorem batchGet_zero_ceiling_config_error {K P R : Type}
    (callFn : K → P → Option R) (keys : List K) (p : P) (rl : RateLimit)
    (ratio : ℚ) (h : effectiveCeiling rl ratio = 0) :
    batchGetWithFlowRestriction callFn keys p rl ratio =
      ⟨.error .invalidCeiling, [], []⟩ := by
  simp only [batchGetWithFlowRestriction]
  rw [if_pos (by omega)]

/-- Witness for C4: one request per window with buffer ratio one half gives
effective ceiling zero. -/
theorem batchGet_zero_ceiling_config_error_witness :
    batchGetWithFlowRestriction (fun (k : ℕ) (_ : Unit) => some k) [7] ()
        ⟨1, 1000⟩ (1 / 2) = ⟨.error .invalidCeiling, [], []⟩ :=
  batchGet_zero_ceiling_config_error _ [7] () ⟨1, 1000⟩ (1 / 2)
    (by simp only [effectiveCeiling]; norm_num)

/-- Claim C5: on the empty key list (under a configuration with a positive
effective ceiling, so that the configuration check passes) the executor
returns an empty result, dispatches zero calls and starts zero waits. -/
theorem batchGet_empty_keys {K P R : Type} (callFn : K → P → Option R)
    (p : P) (rl : RateLimit) (ratio : ℚ)
    (hceil : 1 ≤ effectiveCeiling rl ratio) :
    batchGetWithFlowRestriction callFn ([] : List K) p rl ratio =
      ⟨.ok [], [], []⟩ := by
  have hno : ¬ effectiveCeiling rl ratio ≤ 0 := by omega
  simp only [batchGetWithFlowRestriction]
  rw [if_neg hno]
  simp [chunksOf, runChunks]

/-- Witness for C5 at a concrete configuration. -/
theorem batchGet_empty_keys_witness :
    batchGetWithFlowRestriction (fun (k : ℕ) (_ : Unit) => some k)
        ([] : List ℕ) () ⟨2, 1000⟩ 1 = ⟨.ok [], [], []⟩ :=
  batchGet_empty_keys _ () ⟨2, 1000⟩ 1
    (by rw [effectiveCeiling_ratio_one]; omega)

/-- Counterexample to claim C6 as stated: with effective ceiling two and the
empty key list (whose length is at most the ceiling) the executor dispatches
zero chunks, not exactly one. -/
theorem batchGet_single_chunk_cex :
    ([] : List ℕ).length ≤ (effectiveCeiling ⟨2, 1000⟩ 1).toNat ∧
    ¬ (chunksOf (effectiveCeiling ⟨2, 1000⟩ 1).toNat
        ([] : List ℕ)).length = 1 := by
  constructor
  · simp
  · rw [effectiveCeiling_ratio_one]
    simp [chunksOf]

/-- Claim C6 amended: for every non-empty key list whose length is at most
the effective ceiling, the executor dispatches exactly one chunk and
performs no inter-chunk wait. -/
theorem batchGet_single_chunk_of_small_input {K P R : Type}
    (callFn : K → P → Option R) (keys : List K) (p : P) (rl : RateLimit)
    (ratio : ℚ) (hne : keys ≠ [])
    (hlen : keys.length ≤ (effectiveCeiling rl ratio).toNat) :
    (chunksOf (effectiveCeiling rl ratio).toNat keys).length = 1 ∧
    (batchGetWithFlowRestriction callFn keys p rl ratio).waits = [] := by
  have hpos : 0 < keys.length := List.length_pos.mpr hne
  have hceil : 1 ≤ effectiveCeiling rl ratio := by omega
  have hone := chunksOf_length_one _ keys hne hlen
  refine ⟨hone, ?_⟩
  have hno : ¬ effectiveCeiling rl ratio ≤ 0 := by omega
  simp only [batchGetWithFlowRestriction]
  rw [if_neg hno]
  simp [runChunks_waits, hone]

/-- Witness for amended C6: two keys fit in one chunk of ceiling two. -/
theorem batchGet_single_chunk_of_small_input_witness :
    (chunksOf (effectiveCeiling ⟨2, 1000⟩ 1).toNat [1, 2]).length = 1 ∧
    (batchGetWithFlowRestriction (fun (k : ℕ) (_ : Unit) => some k) [1, 2] ()
        ⟨2, 1000⟩ 1).waits = [] :=
  batchGet_single_chunk_of_small_input _ [1, 2] () ⟨2, 1000⟩ 1 (by simp)
    (by rw [effectiveCeiling_ratio_one]; simp)

/-- Claim C7: when the keys split into at least two chunks, every later
chunk is dispatched exactly one full window after the previous chunk
settled (the pause begins only at settle time), and the settle time of the
final chunk is at least `(N - 1) * windowDurationMs` after the batch starts
at time zero, for every assignment of chunk latencies. -/
theorem batchGet_interchunk_window_bound {K : Type} (lat : List K → ℕ)
    (rl : RateLimit) (ratio : ℚ) (keys : List K) (n : ℕ)
    (_hn : n = (effectiveCeiling rl ratio).toNat)
    (_h2 : 2 ≤ (chunksOf n keys).length) :
    (∀ i (h : i + 1 <
        (chunkSchedule lat rl.windowDurationMs 0 (chunksOf n keys)).length),
      ((chunkSchedule lat rl.windowDurationMs 0 (chunksOf n keys)).get
          ⟨i + 1, h⟩).1 =
        ((chunkSchedule lat rl.windowDurationMs 0 (chunksOf n keys)).get
          ⟨i, Nat.lt_of_succ_lt h⟩).2 + rl.windowDurationMs) ∧
    ∀ pr, (chunkSchedule lat rl.windowDurationMs 0
        (chunksOf n keys)).getLast? = some pr →
      ((chunksOf n keys).length - 1) * rl.windowDurationMs ≤ pr.2 := by
  constructor
  · intro i h
    exact chunkSchedule_get_succ lat rl.windowDurationMs (chunksOf n keys)
      0 i h
  · intro pr hpr
    have hle := chunkSchedule_getLast_settle lat rl.windowDurationMs
      (chunksOf n keys) 0 pr hpr
    simpa using hle

/-- Witness for C7: two keys with ceiling one give two chunks. -/
theorem batchGet_interchunk_window_bound_witness :
    (∀ i (h : i + 1 <
        (chunkSchedule (fun (_ : List ℕ) => 0) 1000 0
          (chunksOf (effectiveCeiling ⟨1, 1000⟩ 1).toNat [1, 2])).length),
      ((chunkSchedule (fun (_ : List ℕ) => 0) 1000 0
          (chunksOf (effectiveCeiling ⟨1, 1000⟩ 1).toNat [1, 2])).get
          ⟨i + 1, h⟩).1 =
        ((chunkSchedule (fun (_ : List ℕ) => 0) 1000 0
          (chunksOf (effectiveCeiling ⟨1, 1000⟩ 1).toNat [1, 2])).get
          ⟨i, Nat.lt_of_succ_lt h⟩).2 + 1000) ∧
    ∀ pr, (chunkSchedule (fun (_ : List ℕ) => 0) 1000 0
        (chunksOf (effectiveCeiling ⟨1, 1000⟩ 1).toNat [1, 2])).getLast? =
          some pr →
      ((chunksOf (effectiveCeiling ⟨1, 1000⟩ 1).toNat [1, 2]).length - 1) *
        1000 ≤ pr.2 :=
  batchGet_interchunk_window_bound (fun (_ : List ℕ) => 0) ⟨1, 1000⟩ 1 [1, 2]
    (effectiveCeiling ⟨1, 1000⟩ 1).toNat rfl
    (by rw [effectiveCeiling_ratio_one]; simp [chunksOf])

/-- Claim C8: `fetchWinningMatches` never propagates a failure of the
match-list call: a thrown match-list call, and an empty fetched match-id
list, both return no comps and the player name Unknown instead of
raising. -/
theorem fetchWinningMatches_matchList_failure_contained
    (gm : String → String → Option MatchTFTDTO) (puuid region : String)
    (rank : ℤ) (rg : String) (rl : RateLimit) (ratio : ℚ) :
    fetchWinningMatches ⟨.error (), gm⟩ puuid region rank rg rl ratio =
      .ok ([], "Unknown") ∧
    fetchWinningMatches ⟨.ok [], gm⟩ puuid region rank rg rl ratio =
      .ok ([], "Unknown") := by
  exact ⟨rfl, rfl⟩

/-- Claim C9: every winning comp returned by `fetchWinningMatches` comes
from a fetched match whose first participant with the requested puuid has
placement exactly one, with the units of the comp being exactly that
participant units projected to character id and tier; and the number of
comps equals the number of fetched matches won by that puuid, so matches
where the participant is absent or placed worse contribute nothing. -/
theorem winningCompOf_eq_some (puuid region name : String) (rank : ℤ)
    (m : MatchTFTDTO) (c : WinningComp)
    (h : winningCompOf puuid region name rank m = some c) :
    ∃ pt, m.info.participants.find? (fun q => q.puuid == puuid) = some pt ∧
      pt.placement = 1 ∧ c.units = pt.units.map projectUnit := by
  unfold winningCompOf at h
  split at h
  · rename_i pt hfind
    split at h
    · rename_i hpl
      refine ⟨pt, hfind, hpl, ?_⟩
      cases h
      rfl
    · exact absurd h (by simp)
  · exact absurd h (by simp)

theorem fetchWinningMatches_wins_only (api : TftApiModel)
    (puuid region : String) (rank : ℤ) (rg : String) (rl : RateLimit)
    (ratio : ℚ) (ids : List String) (ms : List MatchTFTDTO)
    (comps : List WinningComp) (name : String)
    (hids : api.matchList = .ok ids)
    (hms : (batchGetWithFlowRestriction (fun mid r => api.getMatch mid r)
        ids rg rl ratio).result = .ok ms)
    (hres : fetchWinningMatches api puuid region rank rg rl ratio =
        .ok (comps, name)) :
    (∀ c ∈ comps, ∃ m ∈ ms, ∃ pt,
        m.info.participants.find? (fun q => q.puuid == puuid) = some pt ∧
        pt.placement = 1 ∧ c.units = pt.units.map projectUnit) ∧
    comps.length = (ms.filter (isWinFor puuid)).length := by
  by_cases hz : ids.length = 0
  · have hids0 : ids = [] := List.length_eq_zero.mp hz
    subst hids0
    by_cases hc : effectiveCeiling rl ratio ≤ 0
    · rw [batchGetWithFlowRestriction.eq_def] at hms
      simp only [if_pos hc] at hms
      exact absurd hms (by simp)
    · have hms0 : ms = [] := by
        rw [batchGetWithFlowRestriction.eq_def] at hms
        simp only [if_neg hc, chunksOf, runChunks] at hms
        exact (Except.ok.inj hms).symm
      subst hms0
      rw [fetchWinningMatches.eq_def, hids] at hres
      simp at hres
      obtain ⟨h1, -⟩ := hres
      subst h1
      simp
  · rw [fetchWinningMatches.eq_def, hids] at hres
    simp only [if_neg hz, hms] at hres
    simp only [Except.ok.injEq, Prod.mk.injEq] at hres
    obtain ⟨hcomps, -⟩ := hres
    subst hcomps
    constructor
    · intro c hcmem
      rcases List.mem_filterMap.mp hcmem with ⟨m, hm, hw⟩
      exact ⟨m, hm, winningCompOf_eq_some _ _ _ _ _ _ hw⟩
    · exact length_filterMap_eq_length_filter _ _
        (winningCompOf_isSome puuid region _ rank) ms

/-- Witness for C9: one fetched match won by the requested puuid yields
exactly its projected comp. -/
theorem fetchWinningMatches_wins_only_witness :
    (∀ c ∈ [sampleComp], ∃ m ∈ [sampleMatch], ∃ pt,
        m.info.participants.find? (fun q => q.puuid == "p") = some pt ∧
        pt.placement = 1 ∧ c.units = pt.units.map projectUnit) ∧
    [sampleComp].length = ([sampleMatch].filter (isWinFor "p")).length :=
  fetchWinningMatches_wins_only sampleApi "p" "r" 1 "g" ⟨1, 1000⟩ 1 ["i"]
    [sampleMatch] [sampleComp] "A" rfl
    (by simp [batchGetWithFlowRestriction, effectiveCeiling_ratio_one,
      chunksOf, runChunks, sampleApi])
    (by simp [fetchWinningMatches, sampleApi, batchGetWithFlowRestriction,
      effectiveCeiling_ratio_one, chunksOf, runChunks, playerNameOf,
      winningCompOf, projectUnit, sampleMatch, sampleParticipant,
      sampleUnit, sampleComp])

/-- Claim C10: `fetchTopChallengers` returns at most `count` entries,
ordered by league points in non-increasing order; every returned entry is a
leaderboard entry and has at least as many league points as any leaderboard
entry left out. -/
theorem fetchTopChallengers_top_sorted (entries : List LeagueEntry)
    (count : ℕ) :
    (fetchTopChallengers entries count).length ≤ count ∧
    List.Pairwise (fun a b => b.leaguePoints ≤ a.leaguePoints)
      (fetchTopChallengers entries count) ∧
    (∀ e ∈ fetchTopChallengers entries count, e ∈ entries) ∧
    ∀ e ∈ fetchTopChallengers entries count, ∀ q ∈ entries,
      q ∉ fetchTopChallengers entries count →
        q.leaguePoints ≤ e.leaguePoints := by
  have htrans : ∀ a b c : LeagueEntry,
      decide (b.leaguePoints ≤ a.leaguePoints) = true →
      decide (c.leaguePoints ≤ b.leaguePoints) = true →
      decide (c.leaguePoints ≤ a.leaguePoints) = true := by
    intro a b c hab hbc
    simp only [decide_eq_true_eq] at hab hbc ⊢
    exact le_trans hbc hab
  have htotal : ∀ a b : LeagueEntry,
      (decide (b.leaguePoints ≤ a.leaguePoints) ||
        decide (a.leaguePoints ≤ b.leaguePoints)) = true := by
    intro a b
    simp only [Bool.or_eq_true, decide_eq_true_eq]
    exact le_total _ _
  have hsorted := List.sorted_mergeSort htrans htotal entries
  have hperm := List.mergeSort_perm entries
    (fun a b => decide (b.leaguePoints ≤ a.leaguePoints))
  have hpw : List.Pairwise (fun a b => b.leaguePoints ≤ a.leaguePoints)
      (entries.mergeSort
        (fun a b => decide (b.leaguePoints ≤ a.leaguePoints))) :=
    hsorted.imp (fun h => of_decide_eq_true h)
  simp only [fetchTopChallengers]
  refine ⟨List.length_take_le _ _, ?_, ?_, ?_⟩
  · exact List.Pairwise.sublist (List.take_sublist _ _) hpw
  · intro e he
    exact hperm.subset (List.mem_of_mem_take he)
  · intro e he q hq hqnot
    have hq2 : q ∈ entries.mergeSort
        (fun a b => decide (b.leaguePoints ≤ a.leaguePoints)) :=
      hperm.symm.subset hq
    have hsplit := List.take_append_drop count (entries.mergeSort
      (fun a b => decide (b.leaguePoints ≤ a.leaguePoints)))
    have hpw2 := hpw
    rw [← hsplit] at hpw2
    have hdq : q ∈ (entries.mergeSort
        (fun a b => decide (b.leaguePoints ≤ a.leaguePoints))).drop count := by
      rw [← hsplit] at hq2
      rcases List.mem_append.mp hq2 with h | h
      · exact absurd h hqnot
      · exact h
    exact (List.pairwise_append.mp hpw2).2.2 e he q hdq
